import Mathlib

/-!
# Verification of the `inrequest` path-materialization core

Shallow embedding of `src/utils.go` of the `inrequest` repository: the
path translator (`replaceBracketKeyIntoDotKey`), grouper (`groupMapKey`),
tree builder (`transformDotPathToMap`), type coercer
(`convertStringToActualType`), array collapser
(`convertMapToSliceIfNumericKeys`) and orchestrator (`mapValuesOf`).

Go's `map[string]interface{}` (`RequestValue`) is modelled as an
association list with distinct-key insert/delete/lookup; `interface{}`
values are modelled by the inductive `GoValue`.  Go runtime panics
(negative `make` length, out-of-range slice indexing) are modelled by
`Option`: `none` means the Go code panics.
-/

/-- Model of the dynamic `interface{}` values stored in a `RequestValue`:
strings, native `int`, `int64`, `float64` (carried as the exact rational the
decimal literal denotes, abstracting IEEE-754 rounding), booleans, `nil`,
opaque uploaded-file handles (`FileHeaders`), nested `RequestValue` maps and
`[]interface{}` slices. -/
inductive GoValue where
  | str (s : String)
  | int (n : Int)
  | int64 (n : Int)
  | float (q : Rat)
  | bool (b : Bool)
  | null
  | fileRef (name : String) (size : Nat)
  | map (entries : List (String × GoValue))
  | arr (elems : List GoValue)

/-- Model of Go's `RequestValue = map[string]interface{}` as an association
list (the list order is a representation artefact of the unordered Go map). -/
abbrev RequestValue := List (String × GoValue)

/-- Model of the `GroupRequestProperty` struct of `types.go`. -/
structure GroupRequestProperty where
  Path : String
  Value : GoValue

/-- Model of `GroupRequest = map[string][]GroupRequestProperty`. -/
abbrev GroupRequest := List (String × List GroupRequestProperty)

/-- `m[k]` map lookup. -/
def mapLookup (t : RequestValue) (k : String) : Option GoValue :=
  match t with
  | [] => none
  | (k', v) :: rest => if k' = k then some v else mapLookup rest k

/-- `m[k] = v` map assignment: replaces an existing binding, else appends. -/
def mapInsert (t : RequestValue) (k : String) (v : GoValue) : RequestValue :=
  match t with
  | [] => [(k, v)]
  | (k', v') :: rest =>
      if k' = k then (k, v) :: rest else (k', v') :: mapInsert rest k v

/-- `delete(m, k)` map deletion. -/
def mapDelete (t : RequestValue) (k : String) : RequestValue :=
  match t with
  | [] => []
  | (k', v') :: rest =>
      if k' = k then mapDelete rest k else (k', v') :: mapDelete rest k

/-- Model of `strings.Split(s, ".")`: split at every `'.'`, keeping empty
segments; a string with `n` dots yields `n+1` segments. -/
def splitDots (s : String) : List String :=
  (go s.data).map List.asString
where
  go : List Char → List (List Char)
    | [] => [[]]
    | c :: rest =>
      match go rest with
      | [] => [[]]
      | g :: gs => if c = '.' then [] :: g :: gs else (c :: g) :: gs

/-- Model of `strings.Join(parts, ".")`. -/
def joinDots : List String → String
  | [] => ""
  | [p] => p
  | p :: q :: qs => p ++ "." ++ joinDots (q :: qs)

/-- Character substitution of the package-level
`strings.NewReplacer("]", "", "[", ".")`: every `']'` is deleted and every
`'['` becomes `'.'`. -/
def bracketReplace (s : String) : String :=
  (s.data.filterMap fun c =>
    if c = ']' then none else if c = '[' then some '.' else some c).asString

/-- Model of `strings.Trim(s, ".")`: removes all leading and trailing `'.'`
characters. -/
def trimDots (s : String) : String :=
  (((s.data.dropWhile (· = '.')).reverse.dropWhile (· = '.')).reverse).asString

/-- Embedding of `replaceBracketKeyIntoDotKey` (`utils.go:167`): fast path
returns bracket-free input unchanged; otherwise replace brackets and trim
dots. -/
def replaceBracketKeyIntoDotKey (key : String) : String :=
  if ¬ (key.data.contains '[' || key.data.contains ']') then key
  else trimDots (bracketReplace key)

/-- Decimal digit test, as Go's byte comparison `'0' <= c && c <= '9'`. -/
def isDigitChar (c : Char) : Bool := '0' ≤ c ∧ c ≤ '9'

/-- Accumulate the value of a decimal digit run; `none` on a non-digit. -/
def digitsValAux (acc : Nat) : List Char → Option Nat
  | [] => some acc
  | c :: rest =>
      if isDigitChar c then digitsValAux (acc * 10 + (c.toNat - '0'.toNat)) rest
      else none

/-- Model of `strconv.ParseInt(s, 10, 64)`: an optional single `'+'`/`'-'`
sign followed by a non-empty run of decimal digits, whose value must lie in
the signed 64-bit range (Go signals `ErrRange` otherwise, which the callers
in `utils.go` treat as failure). -/
def goParseInt64 (s : String) : Option Int :=
  let signAndDigits : Bool × List Char :=
    match s.data with
    | '+' :: rest => (false, rest)
    | '-' :: rest => (true, rest)
    | l => (false, l)
  match signAndDigits.2 with
  | [] => none
  | ds =>
      match digitsValAux 0 ds with
      | none => none
      | some n =>
          let v : Int := if signAndDigits.1 then -(n : Int) else (n : Int)
          if -(2 ^ 63) ≤ v ∧ v ≤ 2 ^ 63 - 1 then some v else none

/-- Model of `strconv.Atoi(s)`, i.e. `strconv.ParseInt(s, 10, 0)` with the
platform `int` being 64 bits wide: same syntax and range as `goParseInt64`. -/
def goAtoi (s : String) : Option Int := goParseInt64 s

/-- Split off the leading run of decimal digits. -/
def spanDigits (l : List Char) : List Char × List Char :=
  match l with
  | [] => ([], [])
  | c :: rest =>
      if isDigitChar c then
        let (ds, tl) := spanDigits rest
        (c :: ds, tl)
      else ([], c :: rest)

/-- Model of `strconv.ParseFloat(s, 64)` on the decimal forms reached from
`convertStringToActualType`: an optional sign, a mantissa `ddd`, `ddd.`,
`ddd.ddd` or `.ddd` with at least one digit, and an optional `e`/`E`
exponent with optional sign.  The result is the exact rational value of the
literal; IEEE-754 rounding to the nearest `float64`, hexadecimal mantissas,
`Inf`/`NaN` spellings and digit-separating underscores are abstracted away. -/
def goParseFloat (s : String) : Option Rat :=
  let signAndBody : Bool × List Char :=
    match s.data with
    | '+' :: rest => (false, rest)
    | '-' :: rest => (true, rest)
    | l => (false, l)
  let (intDigits, afterInt) := spanDigits signAndBody.2
  let (fracDigits, afterFrac) :
      List Char × List Char :=
    match afterInt with
    | '.' :: rest => spanDigits rest
    | l => ([], l)
  if intDigits = [] ∧ fracDigits = [] then none
  else
    match digitsValAux 0 (intDigits ++ fracDigits) with
    | none => none
    | some mant =>
        let expPart : Option Int :=
          match afterFrac with
          | [] => some 0
          | 'e' :: rest => parseExp rest
          | 'E' :: rest => parseExp rest
          | _ => none
        match expPart with
        | none => none
        | some e =>
            let fl : Int := fracDigits.length
            let mag : Rat :=
              if fl ≤ e then (mant : Rat) * ((10 ^ (e - fl).toNat : Nat) : Rat)
              else (mant : Rat) / ((10 ^ (fl - e).toNat : Nat) : Rat)
            if signAndBody.1 then some (-mag) else some mag
where
  parseExp (l : List Char) : Option Int :=
    let signAndDs : Bool × List Char :=
      match l with
      | '+' :: rest => (false, rest)
      | '-' :: rest => (true, rest)
      | l' => (false, l')
    match signAndDs.2 with
    | [] => none
    | ds =>
        match digitsValAux 0 ds with
        | none => none
        | some n => some (if signAndDs.1 then -(n : Int) else (n : Int))

/-- The guard of `utils.go:140`: `len(value) > 1 && value[0] == '0' &&
value[1] != '.'` (byte indexing coincides with character indexing here since
the guard requires the first character to be the ASCII `'0'`). -/
def leadingZeroGuard (s : String) : Bool :=
  match s.data with
  | '0' :: c :: _ => c ≠ '.'
  | _ => false

/-- Embedding of `convertStringToActualType` (`utils.go:124`). -/
def convertStringToActualType (value : String) : GoValue :=
  if value = "" then .str value
  else if value = "true" then .bool true
  else if value = "false" then .bool false
  else if leadingZeroGuard value then .str value
  else if value.data.contains '.' then
    match goParseFloat value with
    | some floatValue => .float floatValue
    | none => .str value
  else
    match goParseInt64 value with
    | some intValue =>
        if -(2 ^ 31) ≤ intValue ∧ intValue ≤ 2 ^ 31 - 1 then .int intValue
        else .int64 intValue
    | none => .str value

/-- The key-collection loop of `convertMapToSliceIfNumericKeys`
(`utils.go:95`): `strconv.Atoi` every key; `none` models `allNumeric =
false` (the Go loop breaks early, but the accepted/rejected decision and the
collected keys on acceptance do not depend on map iteration order). -/
def collectKeys : RequestValue → Option (List Int)
  | [] => some []
  | (k, _) :: rest =>
      match goAtoi k with
      | none => none
      | some n =>
          match collectKeys rest with
          | none => none
          | some ns => some (n :: ns)

/-- `make([]interface{}, n)`: a slice of `n` `nil`s; a negative length is a
runtime panic, modelled as `none`. -/
def goMakeSlice (n : Int) : Option (List GoValue) :=
  if n < 0 then none else some (List.replicate n.toNat .null)

/-- The fill loop of `convertMapToSliceIfNumericKeys` (`utils.go:116`):
`arrMap[key] = vMap[strconv.Itoa(key)]` for each sorted key; an index
outside `[0, len)` is a runtime panic, modelled as `none`; a missing map
entry reads as `nil`. -/
def fillSlice (vMap : RequestValue) : List Int → List GoValue → Option (List GoValue)
  | [], arr => some arr
  | k :: ks, arr =>
      if 0 ≤ k ∧ k.toNat < arr.length then
        fillSlice vMap ks (arr.set k.toNat ((mapLookup vMap (toString k)).getD .null))
      else none

/-- Embedding of `convertMapToSliceIfNumericKeys` (`utils.go:91`).  `none`
models a Go runtime panic (negative `make` length or negative slice index,
reachable when a key parses to a negative integer). -/
def convertMapToSliceIfNumericKeys (vMap : RequestValue) : Option GoValue :=
  match collectKeys vMap with
  | none => some (.map vMap)
  | some keys =>
      if keys = [] then some (.map vMap)
      else
        let sorted := keys.insertionSort (· ≤ ·)
        let maxIndex := sorted.getLastD 0
        match goMakeSlice (maxIndex + 1) with
        | none => none
        | some arr =>
            match fillSlice vMap sorted arr with
            | none => none
            | some filled => some (.arr filled)

mutual

/-- Embedding of `fixValueToActualType` (`utils.go:71`): walk the entries of
a map; `nil` values are skipped, nested maps are fixed recursively and then
collapsed, raw strings are coerced, everything else is left unchanged.
`none` models a panic escaping from the collapser. -/
def fixValueToActualType : RequestValue → Option RequestValue
  | [] => some []
  | (k, v) :: rest =>
      match fixEntryValue v with
      | none => none
      | some v' =>
          match fixValueToActualType rest with
          | none => none
          | some rest' => some ((k, v') :: rest')

/-- The per-entry body of the `fixValueToActualType` loop. -/
def fixEntryValue : GoValue → Option GoValue
  | .map m =>
      match fixValueToActualType m with
      | none => none
      | some m' => convertMapToSliceIfNumericKeys m'
  | .str s => some (convertStringToActualType s)
  | v => some v

end

/-- Embedding of the recursion of `transformDotPathToMap` (`utils.go:49`) on
the list of path segments.  The Go function re-splits
`strings.Join(paths[1:], ".")` at each level; since splitting on `"."` and
re-joining with `"."` reconstruct each other exactly, that recursion is the
structural recursion on the segment list written here.  Note that when a
non-map value already occupies the first segment's key, the type assertion
at `utils.go:60` fails and the write is silently dropped. -/
def insertPath (t : RequestValue) (paths : List String) (value : GoValue) : RequestValue :=
  match paths with
  | [] => t
  | [p] => mapInsert t p value
  | p :: q :: qs =>
      let t1 := if (mapLookup t p).isNone then mapInsert t p (.map []) else t
      let t2 := mapDelete t1 (joinDots (p :: q :: qs))
      match mapLookup t2 p with
      | some (.map child) => mapInsert t2 p (.map (insertPath child (q :: qs) value))
      | _ => t2

/-- Embedding of `transformDotPathToMap` (`utils.go:49`). -/
def transformDotPathToMap (t : RequestValue) (dotPath : String) (value : GoValue) : RequestValue :=
  insertPath t (splitDots dotPath) value

/-- `mapQuery[k] = append(mapQuery[k], q)` on the association-list model of
`GroupRequest`. -/
def groupAppend (g : GroupRequest) (k : String) (q : GroupRequestProperty) : GroupRequest :=
  match g with
  | [] => [(k, [q])]
  | (k', qs) :: rest =>
      if k' = k then (k', qs ++ [q]) :: rest else (k', qs) :: groupAppend rest k q

/-- Embedding of `groupMapKey` (`utils.go:25`): translate each path to dot
form and append the property (with the translated path) to the group of its
first dot segment. -/
def groupMapKey (data : List GroupRequestProperty) : GroupRequest :=
  data.foldl
    (fun acc p =>
      let dotKey := replaceBracketKeyIntoDotKey p.Path
      groupAppend acc ((splitDots dotKey).headD "") ⟨dotKey, p.Value⟩)
    []

/-- Embedding of `mapValuesOf` (`utils.go:10`): group the properties, build
the tree per group (groups touch disjoint top-level keys, so the Go map's
iteration order over groups is immaterial; this model iterates groups in
first-appearance order), then run the coercion/collapse walk.  `none` models
a Go runtime panic. -/
def mapValuesOf (queries : List GroupRequestProperty) : Option RequestValue :=
  let mapQuery := groupMapKey queries
  let maps :=
    mapQuery.foldl
      (fun acc g =>
        let acc1 := if (mapLookup acc g.1).isNone then mapInsert acc g.1 (.map []) else acc
        g.2.foldl (fun a q => transformDotPathToMap a q.Path q.Value) acc1)
      []
  fixValueToActualType maps

/-! ## Association-map lemmas -/

theorem mapLookup_mapInsert_self (t : RequestValue) (k : String) (v : GoValue) :
    mapLookup (mapInsert t k v) k = some v := by
  induction t with
  | nil => simp [mapInsert, mapLookup]
  | cons e rest ih =>
      obtain ⟨k', v'⟩ := e
      by_cases h : k' = k <;> simp [mapInsert, mapLookup, h, ih]

theorem mapLookup_mapInsert_ne (t : RequestValue) (k k' : String) (v : GoValue)
    (h : k ≠ k') : mapLookup (mapInsert t k v) k' = mapLookup t k' := by
  induction t with
  | nil => simp [mapInsert, mapLookup, h]
  | cons e rest ih =>
      obtain ⟨k0, v0⟩ := e
      by_cases h0 : k0 = k
      · subst h0
        simp [mapInsert, mapLookup, h]
      · simp [mapInsert, mapLookup, h0, ih]

theorem mapInsert_mapInsert_same (t : RequestValue) (k : String) (v1 v2 : GoValue) :
    mapInsert (mapInsert t k v1) k v2 = mapInsert t k v2 := by
  induction t with
  | nil => simp [mapInsert]
  | cons e rest ih =>
      obtain ⟨k0, v0⟩ := e
      by_cases h0 : k0 = k <;> simp [mapInsert, h0, ih]

theorem mapLookup_mapDelete_self (t : RequestValue) (k : String) :
    mapLookup (mapDelete t k) k = none := by
  induction t with
  | nil => simp [mapDelete, mapLookup]
  | cons e rest ih =>
      obtain ⟨k0, v0⟩ := e
      by_cases h0 : k0 = k <;> simp [mapDelete, mapLookup, h0, ih]

theorem mapLookup_mapDelete_ne (t : RequestValue) (k k' : String) (h : k ≠ k') :
    mapLookup (mapDelete t k) k' = mapLookup t k' := by
  induction t with
  | nil => simp [mapDelete]
  | cons e rest ih =>
      obtain ⟨k0, v0⟩ := e
      by_cases h0 : k0 = k
      · subst h0
        simp [mapDelete, mapLookup, ih, h]
      · simp [mapDelete, mapLookup, h0, ih]

theorem mapDelete_eq_self (t : RequestValue) (k : String)
    (h : mapLookup t k = none) : mapDelete t k = t := by
  induction t with
  | nil => simp [mapDelete]
  | cons e rest ih =>
      obtain ⟨k0, v0⟩ := e
      by_cases h0 : k0 = k
      · simp [mapLookup, h0] at h
      · simp [mapLookup, h0] at h
        simp [mapDelete, h0, ih h]

/-! ## Tree-builder lemmas -/

theorem ne_joinDots (p q : String) (qs : List String) :
    p ≠ joinDots (p :: q :: qs) := by
  intro h
  have hone : (".").length = 1 := rfl
  have hlen : (joinDots (p :: q :: qs)).length =
      p.length + 1 + (joinDots (q :: qs)).length := by
    simp [joinDots, String.length_append, hone]
  rw [← h] at hlen
  omega

/-- The shared prefix of the multi-segment branch of `insertPath`: ensure a
binding at the first segment, then delete the full dotted key. -/
def insertStep (t : RequestValue) (p q : String) (qs : List String) : RequestValue :=
  mapDelete (if (mapLookup t p).isNone then mapInsert t p (.map []) else t)
    (joinDots (p :: q :: qs))

theorem insertPath_cons_cons (t : RequestValue) (p q : String) (qs : List String) (v : GoValue) :
    insertPath t (p :: q :: qs) v =
      match mapLookup (insertStep t p q qs) p with
      | some (.map child) =>
          mapInsert (insertStep t p q qs) p (.map (insertPath child (q :: qs) v))
      | _ => insertStep t p q qs := rfl

theorem mapLookup_insertStep_isSome (t : RequestValue) (p q : String) (qs : List String) :
    (mapLookup (insertStep t p q qs) p).isSome := by
  have hne := ne_joinDots p q qs
  cases h : mapLookup t p with
  | none =>
      simp [insertStep, h, mapLookup_mapDelete_ne _ _ _ (Ne.symm hne),
        mapLookup_mapInsert_self]
  | some w =>
      simp [insertStep, h, mapLookup_mapDelete_ne _ _ _ (Ne.symm hne)]

theorem mapLookup_insertStep_full (t : RequestValue) (p q : String) (qs : List String) :
    mapLookup (insertStep t p q qs) (joinDots (p :: q :: qs)) = none := by
  unfold insertStep
  exact mapLookup_mapDelete_self _ _

theorem insertStep_of_lookup_some (s : RequestValue) (p q : String) (qs : List String)
    (hp : (mapLookup s p).isSome)
    (hfull : mapLookup s (joinDots (p :: q :: qs)) = none) :
    insertStep s p q qs = s := by
  obtain ⟨w, hw⟩ := Option.isSome_iff_exists.mp hp
  unfold insertStep
  rw [if_neg (by simp [hw])]
  exact mapDelete_eq_self _ _ hfull

/-- Writing twice along the same segment path is the same as writing only the
second value: the single-segment case is a plain map overwrite, and in the
multi-segment case the second write follows exactly the child chain the
first write took. -/
theorem insertPath_insertPath (paths : List String) (t : RequestValue) (v1 v2 : GoValue) :
    insertPath (insertPath t paths v1) paths v2 = insertPath t paths v2 := by
  induction paths generalizing t with
  | nil => rfl
  | cons p rest ih =>
      cases rest with
      | nil => simp [insertPath, mapInsert_mapInsert_same]
      | cons q qs =>
          have hne := ne_joinDots p q qs
          obtain ⟨w, hw⟩ :=
            Option.isSome_iff_exists.mp (mapLookup_insertStep_isSome t p q qs)
          have hfull := mapLookup_insertStep_full t p q qs
          rw [insertPath_cons_cons t p q qs v1, insertPath_cons_cons t p q qs v2, hw]
          cases w with
          | map c =>
              dsimp only
              rw [insertPath_cons_cons,
                insertStep_of_lookup_some _ p q qs
                  (by rw [mapLookup_mapInsert_self]; rfl)
                  (by rw [mapLookup_mapInsert_ne _ _ _ _ hne]; exact hfull),
                mapLookup_mapInsert_self]
              dsimp only
              rw [ih, mapInsert_mapInsert_same]
          | str s' =>
              dsimp only
              rw [insertPath_cons_cons,
                insertStep_of_lookup_some _ p q qs (by rw [hw]; rfl) hfull, hw]
          | int n =>
              dsimp only
              rw [insertPath_cons_cons,
                insertStep_of_lookup_some _ p q qs (by rw [hw]; rfl) hfull, hw]
          | int64 n =>
              dsimp only
              rw [insertPath_cons_cons,
                insertStep_of_lookup_some _ p q qs (by rw [hw]; rfl) hfull, hw]
          | float x =>
              dsimp only
              rw [insertPath_cons_cons,
                insertStep_of_lookup_some _ p q qs (by rw [hw]; rfl) hfull, hw]
          | bool b =>
              dsimp only
              rw [insertPath_cons_cons,
                insertStep_of_lookup_some _ p q qs (by rw [hw]; rfl) hfull, hw]
          | null =>
              dsimp only
              rw [insertPath_cons_cons,
                insertStep_of_lookup_some _ p q qs (by rw [hw]; rfl) hfull, hw]
          | fileRef n s' =>
              dsimp only
              rw [insertPath_cons_cons,
                insertStep_of_lookup_some _ p q qs (by rw [hw]; rfl) hfull, hw]
          | arr l =>
              dsimp only
              rw [insertPath_cons_cons,
                insertStep_of_lookup_some _ p q qs (by rw [hw]; rfl) hfull, hw]

/-! ## Path-splitting lemmas -/

theorem splitDots_go_ne_nil (l : List Char) : splitDots.go l ≠ [] := by
  cases l with
  | nil => simp [splitDots.go]
  | cons c rest =>
      cases h : splitDots.go rest with
      | nil => simp [splitDots.go, h]
      | cons g gs =>
          by_cases hc : c = '.' <;> simp [splitDots.go, h, hc]

theorem asString_data (s : String) : s.data.asString = s := by
  cases s
  rfl

theorem data_asString (l : List Char) : l.asString.data = l := rfl

theorem splitDots_go_no_dot (l : List Char) (h : '.' ∉ l) : splitDots.go l = [l] := by
  induction l with
  | nil => rfl
  | cons c rest ih =>
      simp only [List.mem_cons] at h
      push_neg at h
      rw [splitDots.go, ih h.2]
      simp [Ne.symm h.1]

theorem splitDots_no_dot (x : String) (hx : '.' ∉ x.data) : splitDots x = [x] := by
  rw [splitDots, splitDots_go_no_dot x.data hx]
  simp [asString_data]

theorem splitDots_go_append (x y : List Char) (hx : '.' ∉ x) :
    splitDots.go (x ++ '.' :: y) = x :: splitDots.go y := by
  induction x with
  | nil =>
      simp only [List.nil_append]
      cases h : splitDots.go y with
      | nil => exact absurd h (splitDots_go_ne_nil y)
      | cons g gs => simp [splitDots.go, h]
  | cons c cs ih =>
      simp only [List.mem_cons] at hx
      push_neg at hx
      rw [List.cons_append, splitDots.go, ih hx.2]
      simp [Ne.symm hx.1]

theorem splitDots_append_dot (x y : String) (hx : '.' ∉ x.data) :
    splitDots (x ++ "." ++ y) = x :: splitDots y := by
  have hdata : (x ++ "." ++ y).data = x.data ++ '.' :: y.data := by
    simp [String.data_append]
  rw [splitDots, hdata, splitDots_go_append x.data y.data hx]
  simp [asString_data, splitDots]

/-! ## Path-translator lemmas -/

theorem head?_dropWhile_dots (l : List Char) :
    (l.dropWhile (· = '.')).head? ≠ some '.' := by
  induction l with
  | nil => simp
  | cons c rest ih =>
      by_cases h : c = '.'
      · simpa [List.dropWhile_cons, h] using ih
      · simp [List.dropWhile_cons, h]

theorem getLast?_dropWhile_of_ne_nil (p : Char → Bool) (l : List Char)
    (h : l.dropWhile p ≠ []) : (l.dropWhile p).getLast? = l.getLast? := by
  induction l with
  | nil => simp
  | cons c rest ih =>
      by_cases hc : p c
      · rw [List.dropWhile_cons, if_pos hc] at h ⊢
        have hrest : rest ≠ [] := by
          intro he
          exact h (by simp [he])
        rw [ih h]
        cases rest with
        | nil => exact absurd rfl hrest
        | cons d ds => exact List.getLast?_cons_cons.symm
      · rw [List.dropWhile_cons, if_neg hc]

theorem trimDots_data (s : String) :
    (trimDots s).data =
      ((s.data.dropWhile (· = '.')).reverse.dropWhile (· = '.')).reverse := rfl

theorem trimDots_head (s : String) : (trimDots s).data.head? ≠ some '.' := by
  rw [trimDots_data, List.head?_reverse]
  cases hm : (s.data.dropWhile (· = '.')).reverse.dropWhile (· = '.') with
  | nil => simp
  | cons c cs =>
      rw [← hm, getLast?_dropWhile_of_ne_nil _ _ (by rw [hm]; simp),
        List.getLast?_reverse]
      exact head?_dropWhile_dots s.data

theorem trimDots_getLast (s : String) : (trimDots s).data.getLast? ≠ some '.' := by
  rw [trimDots_data, List.getLast?_reverse]
  exact head?_dropWhile_dots _

theorem mem_trimDots {c : Char} {s : String} (h : c ∈ (trimDots s).data) :
    c ∈ s.data := by
  rw [trimDots_data] at h
  rw [List.mem_reverse] at h
  have h2 := (List.dropWhile_sublist _).mem h
  rw [List.mem_reverse] at h2
  exact (List.dropWhile_sublist _).mem h2

theorem mem_bracketReplace {c : Char} {s : String} (h : c ∈ (bracketReplace s).data) :
    c ≠ '[' ∧ c ≠ ']' := by
  rw [bracketReplace, data_asString] at h
  obtain ⟨a, _, ha⟩ := List.mem_filterMap.mp h
  by_cases h1 : a = ']'
  · simp [h1] at ha
  · by_cases h2 : a = '['
    · simp [h1, h2] at ha
      subst ha
      exact ⟨by decide, by decide⟩
    · simp [h1, h2] at ha
      subst ha
      exact ⟨h2, h1⟩

/-! ## Type-coercer specification -/

/-- The Type Coercer contract as the specification words it (§4.4, six rules
in priority order), written independently of the code embedding. -/
def typeCoercerSpec (value : String) : GoValue :=
  if value = "" then .str ""
  else if value = "true" then .bool true
  else if value = "false" then .bool false
  else if leadingZeroGuard value then .str value
  else if value.data.contains '.' then
    ((goParseFloat value).map GoValue.float).getD (.str value)
  else
    ((goParseInt64 value).map fun n =>
      if -(2 ^ 31) ≤ n ∧ n ≤ 2 ^ 31 - 1 then GoValue.int n else GoValue.int64 n).getD
      (.str value)

theorem collectKeys_sound (vMap : RequestValue) (ks : List Int)
    (h : collectKeys vMap = some ks) :
    ks.length = vMap.length ∧
      ∀ n : Int, n ∈ ks ↔ ∃ p ∈ vMap, goAtoi p.1 = some n := by
  induction vMap generalizing ks with
  | nil =>
      rw [collectKeys] at h
      cases h
      simp
  | cons e rest ih =>
      obtain ⟨k, v⟩ := e
      rw [collectKeys] at h
      cases hk : goAtoi k with
      | none => rw [hk] at h; cases h
      | some n =>
          rw [hk] at h
          cases hr : collectKeys rest with
          | none => rw [hr] at h; cases h
          | some ns =>
              rw [hr] at h
              cases h
              obtain ⟨hlen, hmem⟩ := ih ns hr
              constructor
              · simp [hlen]
              · intro x
                constructor
                · intro hx
                  rcases List.mem_cons.mp hx with rfl | hx
                  · exact ⟨(k, v), by simp, hk⟩
                  · obtain ⟨p, hp, hpx⟩ := (hmem x).mp hx
                    exact ⟨p, List.mem_cons_of_mem _ hp, hpx⟩
                · rintro ⟨p, hp, hpx⟩
                  rcases List.mem_cons.mp hp with rfl | hp
                  · rw [hk] at hpx
                    cases hpx
                    exact List.mem_cons_self _ _
                  · exact List.mem_cons_of_mem _ ((hmem x).mpr ⟨p, hp, hpx⟩)

theorem collectKeys_total (vMap : RequestValue)
    (h : ∀ p ∈ vMap, ∃ n : Int, goAtoi p.1 = some n) :
    ∃ ks, collectKeys vMap = some ks := by
  induction vMap with
  | nil => exact ⟨[], rfl⟩
  | cons e rest ih =>
      obtain ⟨k, v⟩ := e
      obtain ⟨n, hn⟩ := h (k, v) (by simp)
      obtain ⟨ns, hns⟩ := ih fun p hp => h p (List.mem_cons_of_mem _ hp)
      exact ⟨n :: ns, by rw [collectKeys, hn, hns]⟩

theorem sorted_le_getLastD (l : List Int) (d : Int) (hs : l.Sorted (· ≤ ·)) :
    ∀ x ∈ l, x ≤ l.getLastD d := by
  induction l generalizing d with
  | nil => simp
  | cons a t ih =>
      intro x hx
      obtain ⟨ha, ht⟩ := List.sorted_cons.mp hs
      rw [List.getLastD_cons]
      rcases List.mem_cons.mp hx with rfl | hx
      · cases t with
        | nil => simp
        | cons b t' =>
            have hb : b ≤ (b :: t').getLastD x := ih x ht b (by simp)
            exact le_trans (ha b (by simp)) hb
      · exact ih a ht x hx

theorem getLastD_mem (l : List Int) (d : Int) (h : l ≠ []) : l.getLastD d ∈ l := by
  induction l generalizing d with
  | nil => exact absurd rfl h
  | cons a t ih =>
      rw [List.getLastD_cons]
      cases t with
      | nil => simp
      | cons b t' => exact List.mem_cons_of_mem _ (ih a (by simp))

theorem fillSlice_spec (vMap : RequestValue) (ks : List Int) (arr : List GoValue)
    (hb : ∀ k ∈ ks, 0 ≤ k ∧ k.toNat < arr.length) :
    ∃ arr', fillSlice vMap ks arr = some arr' ∧ arr'.length = arr.length ∧
      ∀ i : Nat, i < arr.length →
        ((∃ k ∈ ks, k = (i : Int)) →
          arr'[i]? = some ((mapLookup vMap (toString (i : Int))).getD .null)) ∧
        ((¬ ∃ k ∈ ks, k = (i : Int)) → arr'[i]? = arr[i]?) := by
  induction ks generalizing arr with
  | nil =>
      refine ⟨arr, rfl, rfl, fun i hi => ⟨?_, fun _ => rfl⟩⟩
      rintro ⟨k, hk, -⟩
      exact absurd hk (List.not_mem_nil k)
  | cons k ks ih =>
      obtain ⟨hk0, hklt⟩ := hb k (by simp)
      set arr2 := arr.set k.toNat ((mapLookup vMap (toString k)).getD .null) with harr2
      have hlen2 : arr2.length = arr.length := by simp [harr2]
      obtain ⟨arr', hfill, hlen, hspec⟩ :=
        ih arr2 (fun x hx => by
          obtain ⟨h1, h2⟩ := hb x (List.mem_cons_of_mem _ hx)
          exact ⟨h1, by omega⟩)
      refine ⟨arr', ?_, by omega, ?_⟩
      · rw [fillSlice, if_pos ⟨hk0, hklt⟩, ← harr2, hfill]
      · intro i hi
        have hi2 : i < arr2.length := by omega
        constructor
        · rintro ⟨x, hx, hxi⟩
          by_cases hmem : ∃ y ∈ ks, y = (i : Int)
          · exact ((hspec i hi2).1 hmem)
          · rcases List.mem_cons.mp hx with rfl | hx'
            · subst hxi
              rw [(hspec i hi2).2 hmem, harr2]
              have hnat : (i : Int).toNat = i := by omega
              rw [hnat, List.getElem?_set_self (by omega)]
            · exact absurd ⟨x, hx', hxi⟩ hmem
        · intro hnone
          have hnone2 : ¬ ∃ y ∈ ks, y = (i : Int) := by
            intro ⟨y, hy, hyi⟩
            exact hnone ⟨y, List.mem_cons_of_mem _ hy, hyi⟩
          rw [(hspec i hi2).2 hnone2, harr2, List.getElem?_set_ne]
          intro hki
          exact hnone ⟨k, by simp, by omega⟩

theorem collapse_spec (vMap : RequestValue) (hne : vMap ≠ [])
    (hnum : ∀ p ∈ vMap, ∃ n : Int, goAtoi p.1 = some n ∧ 0 ≤ n) :
    ∃ (m : Int) (seq : List GoValue),
      0 ≤ m ∧
      (∀ p ∈ vMap, ∀ n : Int, goAtoi p.1 = some n → n ≤ m) ∧
      (∃ p ∈ vMap, goAtoi p.1 = some m) ∧
      convertMapToSliceIfNumericKeys vMap = some (.arr seq) ∧
      seq.length = m.toNat + 1 ∧
      ∀ i : Nat, i < seq.length →
        ((∃ p ∈ vMap, goAtoi p.1 = some (i : Int)) →
          seq[i]? = some ((mapLookup vMap (toString (i : Int))).getD .null)) ∧
        ((¬ ∃ p ∈ vMap, goAtoi p.1 = some (i : Int)) → seq[i]? = some .null) := by
  obtain ⟨ks, hks⟩ := collectKeys_total vMap fun p hp => (hnum p hp).imp fun n h => h.1
  obtain ⟨hlen, hmem⟩ := collectKeys_sound vMap ks hks
  have hksne : ks ≠ [] := by
    intro h
    subst h
    exact hne (List.length_eq_zero.mp hlen.symm)
  have hks0 : ∀ x ∈ ks, 0 ≤ x := by
    intro x hx
    obtain ⟨p, hp, hpx⟩ := (hmem x).mp hx
    obtain ⟨n, hn, hn0⟩ := hnum p hp
    rw [hn] at hpx
    cases hpx
    exact hn0
  set sorted := ks.insertionSort (· ≤ ·) with hsorted
  have hperm : ∀ x : Int, x ∈ sorted ↔ x ∈ ks := fun x => List.mem_insertionSort _
  have hsortedne : sorted ≠ [] := by
    intro h
    have := (List.perm_insertionSort (· ≤ ·) ks).length_eq
    rw [← hsorted, h] at this
    exact hksne (List.length_eq_zero.mp this.symm)
  set m := sorted.getLastD 0 with hm
  have hmax : ∀ x ∈ ks, x ≤ m :=
    fun x hx => sorted_le_getLastD sorted 0 (List.sorted_insertionSort _ _) x ((hperm x).mpr hx)
  have hmmem : m ∈ ks := (hperm m).mp (getLastD_mem sorted 0 hsortedne)
  have hm0 : 0 ≤ m := hks0 m hmmem
  have hbounds : ∀ k ∈ sorted, 0 ≤ k ∧ k.toNat < (List.replicate (m + 1).toNat GoValue.null).length := by
    intro k hk
    have hk' := (hperm k).mp hk
    have h0 := hks0 k hk'
    have hle := hmax k hk'
    rw [List.length_replicate]
    exact ⟨h0, by omega⟩
  obtain ⟨arr', hfill, hlen', hspec⟩ :=
    fillSlice_spec vMap sorted (List.replicate (m + 1).toNat GoValue.null) hbounds
  have hcollapse : convertMapToSliceIfNumericKeys vMap = some (.arr arr') := by
    rw [convertMapToSliceIfNumericKeys, hks]
    dsimp only
    rw [if_neg hksne, ← hsorted, ← hm, goMakeSlice, if_neg (by omega)]
    dsimp only
    rw [hfill]
  have hrep : (List.replicate (m + 1).toNat GoValue.null).length = (m + 1).toNat :=
    List.length_replicate _ _
  refine ⟨m, arr', hm0, ?_, (hmem m).mp hmmem, hcollapse, by omega, ?_⟩
  · intro p hp n hn
    exact hmax n ((hmem n).mpr ⟨p, hp, hn⟩)
  · intro i hi
    have hi' : i < (List.replicate (m + 1).toNat GoValue.null).length := by omega
    have htrans : (∃ k ∈ sorted, k = (i : Int)) ↔ ∃ p ∈ vMap, goAtoi p.1 = some (i : Int) := by
      constructor
      · rintro ⟨k, hk, rfl⟩
        exact (hmem _).mp ((hperm _).mp hk)
      · intro hp
        exact ⟨(i : Int), (hperm _).mpr ((hmem _).mpr hp), rfl⟩
    constructor
    · intro hrep'
      exact (hspec i hi').1 (htrans.mpr hrep')
    · intro hnone
      rw [(hspec i hi').2 (fun hx => hnone (htrans.mp hx)), List.getElem?_replicate, if_pos (by omega)]

/-! ## Claim theorems -/

/-- Claim C1 (code bug): the materialization pipeline is NOT total.  On the
single property `a[-1] = "v"` — a path whose bracket segment is the negative
index string `"-1"` — `mapValuesOf` reaches the array collapser with the map
`{"-1": "v"}`, whose key `strconv.Atoi` happily parses as `-1`; the fill
loop then executes `arrMap[-1] = …` on a zero-length slice, a Go runtime
panic (modelled by `none`), instead of returning a ValueTree. -/
theorem mapValuesOf_panics_on_negative_bracket_index :
    mapValuesOf [⟨"a[-1]", .str "v"⟩] = none := rfl

/-- Claim C2 (code bug): the Array Collapser returns the mapping unchanged
for an empty mapping and for a mapping with a key that fails `strconv.Atoi`
(such as `"name"`), but the key `"-1"` does NOT fail the code's signed
`Atoi` parse, so instead of returning the mapping unchanged the collapser
panics (`none`) on a negative slice index. -/
theorem collapser_unchanged_guard_and_negative_panic :
    convertMapToSliceIfNumericKeys [] = some (.map []) ∧
    convertMapToSliceIfNumericKeys [("name", .str "John"), ("0", .str "a")] =
      some (.map [("name", .str "John"), ("0", .str "a")]) ∧
    convertMapToSliceIfNumericKeys [("-1", .str "v")] = none :=
  ⟨rfl, rfl, rfl⟩

/-- Claim C3 (counterexample): inserting `a = "s"` and then `a.b = "t"` does
NOT make the second write win: the tree keeps the scalar `"s"` at `"a"`, and
no mapping containing `"b"` ever appears — the later structured write is
silently dropped, because `transformDotPathToMap` only creates a child map
when the key is absent and its type assertion fails on the scalar. -/
theorem treeBuilder_scalar_collision_keeps_earlier_scalar :
    transformDotPathToMap (transformDotPathToMap [] "a" (.str "s")) "a.b" (.str "t") =
      [("a", .str "s")] ∧
    mapLookup (transformDotPathToMap (transformDotPathToMap [] "a" (.str "s")) "a.b" (.str "t"))
        "a" ≠ some (.map [("b", .str "t")]) :=
  ⟨rfl, by
    intro h
    rw [show mapLookup (transformDotPathToMap
        (transformDotPathToMap [] "a" (.str "s")) "a.b" (.str "t")) "a" =
      some (.str "s") from rfl] at h
    injection h with h2
    exact GoValue.noConfusion h2⟩

/-- Claim C3 (amended): when a scalar (non-map) value occupies the key `x`
and a later property binds `x.y`, the later write is silently dropped: the
tree is left unchanged, still holding the earlier scalar at `x` (the deleted
full dotted key `x.y` is assumed absent, as it always is for trees built by
the pipeline, whose literal keys never contain dots). -/
theorem treeBuilder_later_structured_write_dropped (t : RequestValue) (x y : String)
    (s v2 : GoValue) (hx : '.' ∉ x.data) (hy : '.' ∉ y.data)
    (hs : ∀ m, s ≠ .map m)
    (hd : mapLookup t (x ++ "." ++ y) = none) :
    transformDotPathToMap (transformDotPathToMap t x s) (x ++ "." ++ y) v2 =
      transformDotPathToMap t x s := by
  simp only [transformDotPathToMap]
  rw [splitDots_no_dot x hx, splitDots_append_dot x y hx, splitDots_no_dot y hy]
  have hins : insertPath t [x] s = mapInsert t x s := rfl
  rw [hins]
  have hjoin : joinDots [x, y] = x ++ "." ++ y := rfl
  have h1 : mapLookup (mapInsert t x s) x = some s := mapLookup_mapInsert_self t x s
  have hfull : mapLookup (mapInsert t x s) (joinDots [x, y]) = none := by
    rw [hjoin,
      mapLookup_mapInsert_ne t x _ s (by rw [← hjoin]; exact ne_joinDots x y []), hd]
  rw [insertPath_cons_cons, insertStep_of_lookup_some _ x y [] (by rw [h1]; rfl) hfull, h1]
  cases s with
  | map m => exact absurd rfl (hs m)
  | str a => rfl
  | int a => rfl
  | int64 a => rfl
  | float a => rfl
  | bool a => rfl
  | null => rfl
  | fileRef a b => rfl
  | arr a => rfl

/-- Witness for the amended C3 theorem at `t = []`, `x = "a"`, `y = "b"`,
scalar `"s"`, later value `"t"`. -/
theorem treeBuilder_later_structured_write_dropped_witness :
    transformDotPathToMap (transformDotPathToMap [] "a" (.str "s")) ("a" ++ "." ++ "b")
        (.str "t") = transformDotPathToMap [] "a" (.str "s") :=
  treeBuilder_later_structured_write_dropped [] "a" "b" (.str "s") (.str "t")
    (by decide) (by decide) (fun m h => GoValue.noConfusion h) rfl

/-- Claim C4: the Type Coercer, for every input string, returns exactly what
the six-rule priority list of the specification dictates (the rule list is
`typeCoercerSpec`, written from the spec's words), and in particular
`"0" ↦ int 0`, `"007" ↦ "007"`, `"3.14" ↦ 3.14`, `"true" ↦ true`,
`"" ↦ ""`, `"9999999999999" ↦ int64 9999999999999`. -/
theorem typeCoercer_matches_spec_rules :
    (∀ s : String, convertStringToActualType s = typeCoercerSpec s) ∧
    convertStringToActualType "" = .str "" ∧
    convertStringToActualType "true" = .bool true ∧
    convertStringToActualType "0" = .int 0 ∧
    convertStringToActualType "007" = .str "007" ∧
    convertStringToActualType "3.14" = .float (157 / 50) ∧
    convertStringToActualType "9999999999999" = .int64 9999999999999 := by
  refine ⟨fun s => ?_, rfl, rfl, rfl, rfl, ?_, rfl⟩
  · rw [convertStringToActualType, typeCoercerSpec]
    split_ifs with h1 h2 h3 h4 h5
    · rw [h1]
    · rfl
    · rfl
    · rfl
    · cases hf : goParseFloat s <;> simp [hf]
    · cases hi : goParseInt64 s <;> simp [hi]
  · have h : convertStringToActualType "3.14" =
        .float (((314 : Nat) : Rat) / ((100 : Nat) : Rat)) := rfl
    rw [h]
    exact congrArg GoValue.float (by norm_num)

/-- Claim C5: for every non-empty mapping all of whose keys `Atoi`-parse to
non-negative integers, the collapser returns an ordered sequence of length
`maxIndex + 1` whose entry at each represented index `i` is the mapping's
value at the stringified index (`nil` when that exact string is not a key),
and whose entry at each unrepresented index is null; in particular the keys
`{0,2,5}` mapped to `{a,b,c}` yield `[a, null, b, null, null, c]`. -/
theorem collapser_allNumeric_builds_sparse_sequence :
    (∀ vMap : RequestValue, vMap ≠ [] →
      (∀ p ∈ vMap, ∃ n : Int, goAtoi p.1 = some n ∧ 0 ≤ n) →
      ∃ (m : Int) (seq : List GoValue),
        convertMapToSliceIfNumericKeys vMap = some (.arr seq) ∧
        (∀ p ∈ vMap, ∀ n : Int, goAtoi p.1 = some n → n ≤ m) ∧
        (∃ p ∈ vMap, goAtoi p.1 = some m) ∧
        seq.length = m.toNat + 1 ∧
        ∀ i : Nat, i < seq.length →
          ((∃ p ∈ vMap, goAtoi p.1 = some (i : Int)) →
            seq[i]? = some ((mapLookup vMap (toString (i : Int))).getD .null)) ∧
          ((¬ ∃ p ∈ vMap, goAtoi p.1 = some (i : Int)) → seq[i]? = some .null)) ∧
    convertMapToSliceIfNumericKeys [("0", .str "a"), ("2", .str "b"), ("5", .str "c")] =
      some (.arr [.str "a", .null, .str "b", .null, .null, .str "c"]) := by
  constructor
  · intro vMap hne hnum
    obtain ⟨m, seq, _, hmax, hmkey, hc, hl, hs⟩ := collapse_spec vMap hne hnum
    exact ⟨m, seq, hc, hmax, hmkey, hl, hs⟩
  · rfl

/-- Witness for C5 at the mapping `{"0" ↦ a, "2" ↦ b, "5" ↦ c}`. -/
theorem collapser_allNumeric_builds_sparse_sequence_witness :
    (([("0", GoValue.str "a"), ("2", GoValue.str "b"), ("5", GoValue.str "c")] :
        RequestValue) ≠ [] ∧
      ∀ p ∈ ([("0", GoValue.str "a"), ("2", GoValue.str "b"), ("5", GoValue.str "c")] :
          RequestValue), ∃ n : Int, goAtoi p.1 = some n ∧ 0 ≤ n) ∧
    ∃ (m : Int) (seq : List GoValue),
      convertMapToSliceIfNumericKeys
          [("0", .str "a"), ("2", .str "b"), ("5", .str "c")] = some (.arr seq) ∧
      (∀ p ∈ ([("0", GoValue.str "a"), ("2", GoValue.str "b"), ("5", GoValue.str "c")] :
          RequestValue), ∀ n : Int, goAtoi p.1 = some n → n ≤ m) ∧
      (∃ p ∈ ([("0", GoValue.str "a"), ("2", GoValue.str "b"), ("5", GoValue.str "c")] :
          RequestValue), goAtoi p.1 = some m) ∧
      seq.length = m.toNat + 1 ∧
      ∀ i : Nat, i < seq.length →
        ((∃ p ∈ ([("0", GoValue.str "a"), ("2", GoValue.str "b"), ("5", GoValue.str "c")] :
            RequestValue), goAtoi p.1 = some (i : Int)) →
          seq[i]? = some ((mapLookup [("0", .str "a"), ("2", .str "b"), ("5", .str "c")]
            (toString (i : Int))).getD .null)) ∧
        ((¬ ∃ p ∈ ([("0", GoValue.str "a"), ("2", GoValue.str "b"), ("5", GoValue.str "c")] :
            RequestValue), goAtoi p.1 = some (i : Int)) → seq[i]? = some .null) := by
  have h2 : ∀ p ∈ ([("0", GoValue.str "a"), ("2", GoValue.str "b"),
      ("5", GoValue.str "c")] : RequestValue), ∃ n : Int, goAtoi p.1 = some n ∧ 0 ≤ n := by
    intro p hp
    simp only [List.mem_cons, List.not_mem_nil, or_false] at hp
    rcases hp with rfl | rfl | rfl
    · exact ⟨0, rfl, by omega⟩
    · exact ⟨2, rfl, by omega⟩
    · exact ⟨5, rfl, by omega⟩
  exact ⟨⟨by simp, h2⟩,
    collapser_allNumeric_builds_sparse_sequence.1 _ (by simp) h2⟩

/-- Claim C6 (counterexample): the Path Translator does not trim leading or
trailing dots of bracket-free input — its fast path returns the input
verbatim, so `".a"` comes back starting with `'.'`, contradicting the claim
that no output starts with `'.'`. -/
theorem pathTranslator_keeps_leading_dot_of_bracket_free_input :
    replaceBracketKeyIntoDotKey ".a" = ".a" ∧
    (replaceBracketKeyIntoDotKey ".a").data.head? = some '.' :=
  ⟨rfl, rfl⟩

/-- Claim C6 (amended): for every input the Path Translator's output
contains no `'['` and no `']'`; and whenever the input contains at least one
bracket (so the replace-and-trim path runs), the output neither starts nor
ends with `'.'`.  Bracket-free inputs are returned verbatim and may keep
edge dots. -/
theorem pathTranslator_no_brackets_and_trims_when_bracketed (key : String) :
    ('[' ∉ (replaceBracketKeyIntoDotKey key).data ∧
      ']' ∉ (replaceBracketKeyIntoDotKey key).data) ∧
    ((key.data.contains '[' || key.data.contains ']') = true →
      (replaceBracketKeyIntoDotKey key).data.head? ≠ some '.' ∧
        (replaceBracketKeyIntoDotKey key).data.getLast? ≠ some '.') := by
  rw [replaceBracketKeyIntoDotKey]
  by_cases h : (key.data.contains '[' || key.data.contains ']') = true
  · rw [if_neg (not_not_intro h)]
    refine ⟨⟨fun hc => ?_, fun hc => ?_⟩, fun _ => ⟨trimDots_head _, trimDots_getLast _⟩⟩
    · exact (mem_bracketReplace (mem_trimDots hc)).1 rfl
    · exact (mem_bracketReplace (mem_trimDots hc)).2 rfl
  · rw [if_pos h]
    simp only [Bool.or_eq_true, List.elem_iff] at h
    push_neg at h
    exact ⟨⟨h.1, h.2⟩, fun hc => absurd hc (by simp [h.1, h.2])⟩

/-- Witness for the amended C6 theorem at the bracketed input `"a[0]"`. -/
theorem pathTranslator_no_brackets_and_trims_when_bracketed_witness :
    (replaceBracketKeyIntoDotKey "a[0]").data.head? ≠ some '.' ∧
      (replaceBracketKeyIntoDotKey "a[0]").data.getLast? ≠ some '.' :=
  (pathTranslator_no_brackets_and_trims_when_bracketed "a[0]").2 (by decide)

/-- Claim C7: two properties whose paths resolve to the same dot path produce
the same tree as the later property alone — materialization binds the later
value and silently discards the earlier one (grouping keeps input order in
the shared group, and the tree builder overwrites along the shared path). -/
theorem mapValuesOf_same_resolved_path_last_write_wins
    (p1 p2 : GroupRequestProperty)
    (h : replaceBracketKeyIntoDotKey p1.Path = replaceBracketKeyIntoDotKey p2.Path) :
    mapValuesOf [p1, p2] = mapValuesOf [p2] := by
  unfold mapValuesOf groupMapKey
  simp only [List.foldl_cons, List.foldl_nil, h]
  simp only [groupAppend, if_pos rfl, if_true]
  simp only [List.foldl_cons, List.foldl_nil, List.singleton_append, List.cons_append,
    List.nil_append]
  simp only [transformDotPathToMap]
  rw [insertPath_insertPath]

/-- Witness for C7: `user[name]` and `user.name` resolve to the same dot path;
the later value `"Jane"` wins. -/
theorem mapValuesOf_same_resolved_path_last_write_wins_witness :
    replaceBracketKeyIntoDotKey "user[name]" = replaceBracketKeyIntoDotKey "user.name" ∧
    mapValuesOf [⟨"user[name]", .str "John"⟩, ⟨"user.name", .str "Jane"⟩] =
      mapValuesOf [⟨"user.name", .str "Jane"⟩] :=
  ⟨rfl, mapValuesOf_same_resolved_path_last_write_wins
    ⟨"user[name]", .str "John"⟩ ⟨"user.name", .str "Jane"⟩ rfl⟩

/-- Claim C8: the coercion/collapse walk leaves every non-string, non-map
value exactly unchanged — `fixEntryValue` returns it as is, and an entry
holding such a value passes through `fixValueToActualType` untouched. -/
theorem fixWalk_preserves_non_string_non_map (v : GoValue)
    (hstr : ∀ s, v ≠ .str s) (hmap : ∀ m, v ≠ .map m) :
    fixEntryValue v = some v ∧
    ∀ (k : String) (rest : RequestValue),
      fixValueToActualType ((k, v) :: rest) =
        (fixValueToActualType rest).map (List.cons (k, v)) := by
  have h1 : fixEntryValue v = some v := by
    cases v with
    | str s => exact absurd rfl (hstr s)
    | map m => exact absurd rfl (hmap m)
    | int n => rfl
    | int64 n => rfl
    | float q => rfl
    | bool b => rfl
    | null => rfl
    | fileRef n s => rfl
    | arr l => rfl
  refine ⟨h1, fun k rest => ?_⟩
  rw [fixValueToActualType, h1]
  cases fixValueToActualType rest <;> rfl

/-- Witness for C8 at a FileRef, null, a pre-typed boolean and a pre-typed
integer. -/
theorem fixWalk_preserves_non_string_non_map_witness :
    fixEntryValue (.fileRef "avatar.png" 2048) = some (.fileRef "avatar.png" 2048) ∧
    fixEntryValue .null = some .null ∧
    fixEntryValue (.bool true) = some (.bool true) ∧
    fixEntryValue (.int 5) = some (.int 5) :=
  ⟨(fixWalk_preserves_non_string_non_map _ (fun _ h => GoValue.noConfusion h)
      (fun _ h => GoValue.noConfusion h)).1,
    (fixWalk_preserves_non_string_non_map _ (fun _ h => GoValue.noConfusion h)
      (fun _ h => GoValue.noConfusion h)).1,
    (fixWalk_preserves_non_string_non_map _ (fun _ h => GoValue.noConfusion h)
      (fun _ h => GoValue.noConfusion h)).1,
    (fixWalk_preserves_non_string_non_map _ (fun _ h => GoValue.noConfusion h)
      (fun _ h => GoValue.noConfusion h)).1⟩

/-- Claim C9 (counterexample): a mapping whose only key `"-01"` parses as the
base-10 integer `-1` but is not its canonical rendering is NOT collapsed
into a sequence with a null slot — the collapser panics (negative slice
index), modelled by `none`. -/
theorem collapser_panics_on_noncanonical_negative_key :
    convertMapToSliceIfNumericKeys [("-01", .str "x")] = none := rfl

/-- Claim C9 (amended): for every non-empty mapping whose keys all
`Atoi`-parse to non-negative integers, the collapser collapses it into a
sequence; for each key that is not the canonical decimal rendering of its
parsed index and whose canonical rendering is not itself a key, the slot at
that parsed index holds null — the value under the non-canonical key is
silently dropped, because the fill loop re-stringifies the parsed index. -/
theorem collapser_drops_values_under_noncanonical_keys (vMap : RequestValue)
    (hne : vMap ≠ [])
    (hnum : ∀ p ∈ vMap, ∃ n : Int, goAtoi p.1 = some n ∧ 0 ≤ n) :
    ∃ seq : List GoValue, convertMapToSliceIfNumericKeys vMap = some (.arr seq) ∧
      ∀ (k : String) (v : GoValue) (n : Int), (k, v) ∈ vMap → goAtoi k = some n →
        k ≠ toString n → mapLookup vMap (toString n) = none →
        seq[n.toNat]? = some .null := by
  obtain ⟨m, seq, hm0, hmax, _, hc, hl, hs⟩ := collapse_spec vMap hne hnum
  refine ⟨seq, hc, ?_⟩
  intro k v n hkv hk hkc hlook
  have hn0 : 0 ≤ n := by
    obtain ⟨n', hn', h0⟩ := hnum (k, v) hkv
    rw [hn'] at hk
    cases hk
    exact h0
  have hnm : n ≤ m := hmax (k, v) hkv n hk
  have hi : n.toNat < seq.length := by omega
  have hrep : ∃ p ∈ vMap, goAtoi p.1 = some ((n.toNat : Nat) : Int) := by
    refine ⟨(k, v), hkv, ?_⟩
    rw [hk]
    congr 1
    omega
  have hslot := (hs n.toNat hi).1 hrep
  rw [hslot]
  have hts : toString ((n.toNat : Nat) : Int) = toString n := by
    congr 1
    omega
  rw [hts, hlook]
  rfl

/-- Witness for the amended C9 theorem at the mapping `{"+1" ↦ "x"}`: the
collapser yields a sequence whose slot 1 is null, dropping `"x"`. -/
theorem collapser_drops_values_under_noncanonical_keys_witness :
    (([("+1", GoValue.str "x")] : RequestValue) ≠ [] ∧
      ∀ p ∈ ([("+1", GoValue.str "x")] : RequestValue),
        ∃ n : Int, goAtoi p.1 = some n ∧ 0 ≤ n) ∧
    ∃ seq : List GoValue,
      convertMapToSliceIfNumericKeys [("+1", .str "x")] = some (.arr seq) ∧
      ∀ (k : String) (v : GoValue) (n : Int),
        (k, v) ∈ ([("+1", GoValue.str "x")] : RequestValue) → goAtoi k = some n →
        k ≠ toString n → mapLookup [("+1", .str "x")] (toString n) = none →
        seq[n.toNat]? = some .null := by
  have h2 : ∀ p ∈ ([("+1", GoValue.str "x")] : RequestValue),
      ∃ n : Int, goAtoi p.1 = some n ∧ 0 ≤ n := by
    intro p hp
    simp only [List.mem_cons, List.not_mem_nil, or_false] at hp
    rcases hp with rfl
    exact ⟨1, rfl, by omega⟩
  exact ⟨⟨by simp, h2⟩,
    collapser_drops_values_under_noncanonical_keys _ (by simp) h2⟩

/-- Claim C10: a property whose path translates to the empty dot path (such
as `""` or `"[]"`) is neither rejected nor skipped: materialization succeeds
and binds the property's coerced value under the empty-string key at the top
level. -/
theorem mapValuesOf_empty_path_binds_empty_key (path : String) (s : String)
    (h : replaceBracketKeyIntoDotKey path = "") :
    mapValuesOf [⟨path, .str s⟩] = some [("", convertStringToActualType s)] := by
  unfold mapValuesOf groupMapKey
  simp only [List.foldl_cons, List.foldl_nil, h]
  rfl

/-- Witness for C10 at path `"[]"` with value `"7"` (which coerces to the
integer 7). -/
theorem mapValuesOf_empty_path_binds_empty_key_witness :
    replaceBracketKeyIntoDotKey "[]" = "" ∧
    mapValuesOf [⟨"[]", .str "7"⟩] = some [("", .int 7)] :=
  ⟨rfl, (mapValuesOf_empty_path_binds_empty_key "[]" "7" rfl).trans rfl⟩
